import Mathlib

/-!
Verification of the `DataTable` module of `src/visualization.js`.

The JavaScript module keeps a mutable table `{ columns, rows, selectedRows,
sortState }`; we embed it as a pure state type `TableState` and each public
operation as a state-passing function.  JavaScript rows are arrays used by
reference as members of the `selectedRows` `Set`; reference identity is
modelled by an explicit `id : Nat` field on each row (`loadData` creates a
fresh array per input row via `normalizeRow`, so ids are assigned per load
position).  Possibly-`undefined` JavaScript values are modelled as
`Option String` (`none` = `undefined`/`null`), and possibly-non-array
arguments as `Option (List _)` (`none` = not an array).
-/

namespace DataTable

/-- Sort direction, `'asc' | 'desc'` in the source. -/
inductive Direction where
  | asc
  | desc
deriving DecidableEq, Repr

/-- JS `sortState = { columnIndex: null, direction: 'asc' }` -/
structure SortState where
  columnIndex : Option Nat
  direction : Direction
deriving DecidableEq, Repr

/-- A table row: the cell array plus an identity tag modelling the JS array
reference (used as the key of the `selectedRows` set). -/
structure Row where
  id : Nat
  cells : List String
deriving DecidableEq, Repr

/-- The module state: `columns`, `rows`, `selectedRows` (a `Set` of row
references, modelled as the finite set of row ids) and `sortState`. -/
structure TableState where
  columns : List String
  rows : List Row
  selectedRows : Finset Nat
  sortState : SortState
deriving DecidableEq

/-- JS `formatCell(value)`: `''` for `undefined`/`null`, else `value.toString()`
(cell inputs are modelled as optional strings). -/
def formatCell (v : Option String) : String := v.getD ""

/-- JS `row[idx]` on a JS array: `undefined` past the end. -/
def jsIndex (r : List (Option String)) (i : Nat) : Option String := r.getD i none

/-- JS `normalizeRow(row)`: a non-array becomes all-empty cells; an array is
mapped over the columns, so it is truncated or padded to the column count. -/
def normalizeRow (cols : List String) (row : Option (List (Option String))) : List String :=
  match row with
  | none => cols.map fun _ => ""
  | some r => (List.range cols.length).map fun idx => formatCell (jsIndex r idx)

/-- Column label defaulting in `loadData`: `undefined`/`null`/`''` becomes
`Column (idx+1)`, anything else is kept (already a string in our model). -/
def columnLabel (idx : Nat) (col : Option String) : String :=
  match col with
  | none => "Column " ++ toString (idx + 1)
  | some s => if s = "" then "Column " ++ toString (idx + 1) else s

/-- JS `loadData(newColumns, newRows)`: non-array arguments become `[]`; rows are
normalized against the new columns; selection and sort state are reset. -/
def loadData (newColumns : Option (List (Option String)))
    (newRows : Option (List (Option (List (Option String))))) : TableState :=
  let columns : List String :=
    match newColumns with
    | some cs => cs.enum.map fun p => columnLabel p.1 p.2
    | none => []
  let rows : List Row :=
    match newRows with
    | some rs => rs.enum.map fun p => Row.mk p.1 (normalizeRow columns p.2)
    | none => []
  { columns := columns, rows := rows, selectedRows := ∅,
    sortState := { columnIndex := none, direction := Direction.asc } }

/-- JS `hasData()`: `columns.length > 0 && rows.length > 0`. -/
def hasData (st : TableState) : Bool :=
  decide (0 < st.columns.length) && decide (0 < st.rows.length)

/-- JS `formatCell(row[c])` as used by the sort comparator. -/
def cellAt (r : Row) (c : Nat) : String := r.cells.getD c ""

/-! ### The collator

`Intl.Collator(undefined, { numeric: true, sensitivity: 'base' })` is a
browser built-in; we model it as comparison of collation keys: the string is
cut into maximal digit runs (compared by numeric value) and other characters
(lowercased), digit runs collating after all single characters.  This gives a
numeric-sensitive, case-insensitive total preorder, which is all the module
relies on. -/

/-- Collation token of one digit run of value `n`. -/
def numToken (n : Nat) : Nat := 1114112 + n

/-- Collation token of one non-digit character (case-folded). -/
def charToken (c : Char) : Nat := c.toLower.toNat

/-- Tokenizer: accumulates the value of the current digit run in `cur`. -/
def tokenizeAux : List Char → Option Nat → List Nat → List Nat
  | [], none, acc => acc.reverse
  | [], some n, acc => (numToken n :: acc).reverse
  | c :: rest, cur, acc =>
    if c.isDigit then
      tokenizeAux rest (some (cur.getD 0 * 10 + (c.toNat - 48))) acc
    else
      match cur with
      | some n => tokenizeAux rest none (charToken c :: numToken n :: acc)
      | none => tokenizeAux rest none (charToken c :: acc)

/-- The collation key of a string. -/
def collKey (s : String) : List Nat := tokenizeAux s.toList none []

/-- Lexicographic comparison of collation keys. -/
def lexNat : List Nat → List Nat → Ordering
  | [], [] => Ordering.eq
  | [], _ :: _ => Ordering.lt
  | _ :: _, [] => Ordering.gt
  | a :: as, b :: bs =>
    if a < b then Ordering.lt else if b < a then Ordering.gt else lexNat as bs

/-- An `Ordering` as the sign `collator.compare` returns. -/
def ordInt : Ordering → Int
  | Ordering.lt => -1
  | Ordering.eq => 0
  | Ordering.gt => 1

/-- JS `collator.compare(a, b)`. -/
def collatorCompare (a b : String) : Int := ordInt (lexNat (collKey a) (collKey b))

/-- The comparator passed to `Array.prototype.sort` in `handleSort`, acting on
`{ row, idx }` pairs: `directionFactor * comparison` when the column values
differ, else `directionFactor * (a.idx - b.idx)`. -/
def jsCmp (dir : Int) (c : Nat) (a b : Nat × Row) : Int :=
  let comparison := collatorCompare (cellAt a.2 c) (cellAt b.2 c)
  if comparison ≠ 0 then dir * comparison
  else dir * ((a.1 : Int) - (b.1 : Int))

/-- Relation `jsCmp` as a "less or equal" relation, the order the sort produces. -/
def sortRel (dir : Int) (c : Nat) (a b : Nat × Row) : Prop :=
  jsCmp dir c a b ≤ 0

instance (dir : Int) (c : Nat) : DecidableRel (sortRel dir c) :=
  fun a b => inferInstanceAs (Decidable (jsCmp dir c a b ≤ 0))

/-- The direction the next `handleSort(columnIndex)` call will use. -/
def nextDirection (st : TableState) (columnIndex : Nat) : Direction :=
  if st.sortState.columnIndex = some columnIndex ∧
      st.sortState.direction = Direction.asc
  then Direction.desc else Direction.asc

/-- JS `directionFactor`. -/
def dirFactor : Direction → Int
  | Direction.asc => 1
  | Direction.desc => -1

/-- JS `handleSort(columnIndex)`: guard the index, toggle the direction, then
`rows.map((row, idx) => ({row, idx})).sort(cmp).map(item => item.row)`.
The `idx` tie-break makes the comparator a strict total order on the indexed
pairs, so `Array.prototype.sort` with it produces the unique `cmp`-sorted
permutation; we realize it with `List.insertionSort`. -/
def handleSort (st : TableState) (columnIndex : Nat) : TableState :=
  if columnIndex < st.columns.length then
    let nd := nextDirection st columnIndex
    let sorted :=
      (st.rows.enum.insertionSort (sortRel (dirFactor nd) columnIndex)).map Prod.snd
    { st with rows := sorted,
              sortState := { columnIndex := some columnIndex, direction := nd } }
  else st

/-- JS `toLowerCase()`, modelled per character (column names are ASCII). -/
def lowerName (s : String) : String := String.mk (s.toList.map Char.toLower)

/-- The case-insensitive column lookup of `ensureColumn`. -/
def matchesName (name col : String) : Bool := lowerName col == lowerName name

/-- JS `Math.max(0, Math.min(preferredIndex ?? len, len))`; `none` models a
non-number `preferredIndex`, which defaults to `columns.length`. -/
def clampIndex (pi : Option Int) (len : Nat) : Nat :=
  (max 0 (min (pi.getD (len : Int)) (len : Int))).toNat

/-- JS `arr.splice(i, 0, a)`: insertion at `i`, with `i` clamped to the array
length (JS `splice` appends when the start index is past the end). -/
def spliceInsert {α : Type} (l : List α) (i : Nat) (a : α) : List α :=
  l.take i ++ a :: l.drop i

/-- JS `ensureColumn(columnName, preferredIndex)`: return the index of an
existing case-insensitive match, else insert the column at the clamped
preferred index, widening every row with an empty cell there. -/
def ensureColumn (st : TableState) (columnName : String) (preferredIndex : Option Int) :
    Nat × TableState :=
  match st.columns.findIdx? (matchesName columnName) with
  | some i => (i, st)
  | none =>
    let targetIndex := clampIndex preferredIndex st.columns.length
    (targetIndex,
      { st with
        columns := spliceInsert st.columns targetIndex columnName,
        rows := st.rows.map fun r => { r with cells := spliceInsert r.cells targetIndex "" } })

/-- JS `row[i] = v` on a JS array: in-range assignment replaces the cell;
past-the-end assignment extends the array, the holes reading back as
`undefined` (which every consumer feeds through `formatCell`, so we store
`""`). -/
def jsArraySet (l : List String) (i : Nat) (v : String) : List String :=
  if i < l.length then l.set i v
  else l ++ List.replicate (i - l.length) "" ++ [v]

/-- The write loop shared by `setColumnValues` and `applyFieldValues`:
`rows.forEach((row, idx) => row[columnIndex] = formatCell(values[idx]))`. -/
def writeColumnValues (st : TableState) (columnIndex : Nat) (values : List (Option String)) :
    TableState :=
  { st with
    rows := st.rows.enum.map fun p =>
      { p.2 with cells := jsArraySet p.2.cells columnIndex (formatCell (values.getD p.1 none)) } }

/-- JS `setColumnValues(columnIndex, values)` (the trailing `render`/`notifyChange`
calls are DOM side effects outside the state model). -/
def setColumnValues (st : TableState) (columnIndex : Nat) (values : List (Option String)) :
    TableState :=
  writeColumnValues st columnIndex values

/-- JS `options.mode === 'index' ? 'index' : 'end'`. -/
inductive ApplyMode where
  | index
  | atEnd
deriving DecidableEq, Repr

/-- The `options` argument of `applyFieldValues`. -/
structure ApplyOptions where
  mode : ApplyMode
  index : Option Int
deriving DecidableEq, Repr

/-- One iteration of the `fieldLabels.forEach` loop in `applyFieldValues`:
ensure the column, write `formatCell(values[rowIdx])` into every row at it,
and advance the insertion cursor past the target when in `'index'` mode. -/
def applyStep (mode : ApplyMode) (lookup : String → Option (List (Option String)))
    (acc : TableState × Nat) (label : String) : TableState × Nat :=
  let res := ensureColumn acc.1 label (some (acc.2 : Int))
  let st := writeColumnValues res.2 res.1 ((lookup label).getD [])
  let insertionIndex :=
    if mode = ApplyMode.index ∧ acc.2 ≤ res.1 then res.1 + 1 else acc.2
  (st, insertionIndex)

/-- JS `applyFieldValues(fieldLabels, valueLookup, options)`: no-op on a
non-array or empty label list; otherwise folds `applyStep` over the labels,
starting from the clamped `options.index` in `'index'` mode or from the end
of the table otherwise. -/
def applyFieldValues (st : TableState) (fieldLabels : Option (List String))
    (lookup : String → Option (List (Option String))) (opts : ApplyOptions) : TableState :=
  match fieldLabels with
  | none => st
  | some labels =>
    if labels.isEmpty then st
    else
      let insertionIndex :=
        match opts.mode with
        | ApplyMode.index => clampIndex opts.index st.columns.length
        | ApplyMode.atEnd => st.columns.length
      (labels.foldl (applyStep opts.mode lookup) (st, insertionIndex)).1

/-- JS `normalizeColumnName(name)`: strip everything but ASCII alphanumerics,
then lowercase. -/
def normalizeColumnName (name : String) : String :=
  String.mk ((name.toList.filter fun c => c.isAlphanum).map Char.toLower)

/-- Does `pat` occur at the head of `l`? -/
def leadMatch : List Char → List Char → Bool
  | [], _ => true
  | _ :: _, [] => false
  | a :: as, b :: bs => a == b && leadMatch as bs

/-- Does `pat` occur anywhere in `l`? -/
def hasSub (pat : List Char) : List Char → Bool
  | [] => pat.isEmpty
  | c :: rest => leadMatch pat (c :: rest) || hasSub pat rest

/-- JS `s.includes(pat)`. -/
def includes (s pat : String) : Bool := hasSub pat.toList s.toList

/-- The candidate substrings tried, in priority order, by `findEmailColumn`. -/
def preferredMatches : List String :=
  ["email", "mail", "userprincipalname", "signinname", "upn"]

/-- JS `findEmailColumn()`: `-1` on an empty column set; else the first column
whose normalized name contains the highest-priority matching candidate,
falling back to the `/mail|email/` test; `-1` when nothing matches. -/
def findEmailColumn (st : TableState) : Int :=
  if st.columns.length = 0 then -1
  else
    let normalizedColumns := st.columns.map normalizeColumnName
    match preferredMatches.findSome?
        (fun m => normalizedColumns.findIdx? fun col => includes col m) with
    | some i => (i : Int)
    | none =>
      match normalizedColumns.findIdx? fun col => includes col "mail" || includes col "email" with
      | some i => (i : Int)
      | none => -1

/-- JS `removeSelectedRows()`: no-op when nothing is selected, else drop the
selected rows (by identity) and clear the selection. -/
def removeSelectedRows (st : TableState) : TableState :=
  if st.selectedRows.card = 0 then st
  else
    { st with
      rows := st.rows.filter fun r => !(decide (r.id ∈ st.selectedRows)),
      selectedRows := ∅ }

/-- JS `toggleRowSelection(row, shouldSelect)`: add or remove the row reference
from the selection set (ignoring the DOM refresh). -/
def toggleRowSelection (st : TableState) (rowId : Nat) (shouldSelect : Bool) : TableState :=
  if shouldSelect then { st with selectedRows := insert rowId st.selectedRows }
  else { st with selectedRows := st.selectedRows.erase rowId }

/-- Whether a given row (by identity) is currently selected. -/
def rowSelected (st : TableState) (r : Row) : Prop := r.id ∈ st.selectedRows

/-- The public mutating operations of the store. -/
inductive TableOp where
  | load (cols : Option (List (Option String)))
      (rows : Option (List (Option (List (Option String)))))
  | ensure (name : String) (preferredIndex : Option Int)
  | setValues (columnIndex : Nat) (values : List (Option String))
  | applyFields (labels : Option (List String))
      (lookup : String → Option (List (Option String))) (opts : ApplyOptions)
  | sort (columnIndex : Nat)
  | deleteSelected

/-- Dispatch a public mutating operation. -/
def applyOp : TableOp → TableState → TableState
  | TableOp.load cs rs, st => let _ := st; loadData cs rs
  | TableOp.ensure n pi, st => (ensureColumn st n pi).2
  | TableOp.setValues c vs, st => setColumnValues st c vs
  | TableOp.applyFields ls lk o, st => applyFieldValues st ls lk o
  | TableOp.sort c, st => handleSort st c
  | TableOp.deleteSelected, st => removeSelectedRows st

/-- The row-width invariant: every row is exactly as wide as the column set. -/
def tableInvariant (st : TableState) : Prop :=
  ∀ r ∈ st.rows, r.cells.length = st.columns.length

instance (st : TableState) : Decidable (tableInvariant st) :=
  inferInstanceAs (Decidable (∀ r ∈ st.rows, r.cells.length = st.columns.length))

/-- Validity precondition under which the row-width invariant is preserved:
`setColumnValues` must target an existing column (all in-repo callers pass an
index obtained from `ensureColumn` or `findEmailColumn`). -/
def opValid : TableOp → TableState → Prop
  | TableOp.setValues c _, st => c < st.columns.length
  | _, _ => True

/-! ### Order-theoretic facts about the collator model -/

theorem lexNat_self : ∀ l : List Nat, lexNat l l = Ordering.eq
  | [] => rfl
  | a :: as => by
    unfold lexNat
    rw [if_neg (Nat.lt_irrefl a), if_neg (Nat.lt_irrefl a), lexNat_self as]

theorem eq_of_lexNat_eq : ∀ {a b : List Nat}, lexNat a b = Ordering.eq → a = b
  | [], [], _ => rfl
  | [], _ :: _, h => Ordering.noConfusion h
  | _ :: _, [], h => Ordering.noConfusion h
  | a :: as, b :: bs, h => by
    unfold lexNat at h
    by_cases h1 : a < b
    · rw [if_pos h1] at h; exact Ordering.noConfusion h
    · rw [if_neg h1] at h
      by_cases h2 : b < a
      · rw [if_pos h2] at h; exact Ordering.noConfusion h
      · rw [if_neg h2] at h
        have hab : a = b := Nat.le_antisymm (Nat.not_lt.mp h2) (Nat.not_lt.mp h1)
        rw [hab, eq_of_lexNat_eq h]

theorem lexNat_swap : ∀ a b : List Nat, lexNat b a = (lexNat a b).swap
  | [], [] => rfl
  | [], _ :: _ => rfl
  | _ :: _, [] => rfl
  | a :: as, b :: bs => by
    rcases Nat.lt_trichotomy a b with h | h | h
    · unfold lexNat
      rw [if_neg (Nat.lt_asymm h), if_pos h, if_pos h]; rfl
    · subst h
      unfold lexNat
      rw [if_neg (Nat.lt_irrefl a), if_neg (Nat.lt_irrefl a), if_neg (Nat.lt_irrefl a),
        if_neg (Nat.lt_irrefl a), lexNat_swap as bs]
    · unfold lexNat
      rw [if_pos h, if_neg (Nat.lt_asymm h), if_pos h]; rfl

theorem lexNat_lt_trans :
    ∀ {a b c : List Nat}, lexNat a b = Ordering.lt → lexNat b c = Ordering.lt →
      lexNat a c = Ordering.lt
  | [], [], _, h1, _ => Ordering.noConfusion h1
  | [], _ :: _, [], _, h2 => Ordering.noConfusion h2
  | [], _ :: _, _ :: _, _, _ => rfl
  | _ :: _, [], _, h1, _ => Ordering.noConfusion h1
  | _ :: _, _ :: _, [], _, h2 => Ordering.noConfusion h2
  | a :: as, b :: bs, c :: cs, h1, h2 => by
    unfold lexNat at h1 h2 ⊢
    rcases Nat.lt_trichotomy a b with hab | hab | hab
    · rcases Nat.lt_trichotomy b c with hbc | hbc | hbc
      · rw [if_pos (Nat.lt_trans hab hbc)]
      · subst hbc; rw [if_pos hab]
      · rw [if_neg (Nat.lt_asymm hbc), if_pos hbc] at h2; exact Ordering.noConfusion h2
    · subst hab
      rw [if_neg (Nat.lt_irrefl a), if_neg (Nat.lt_irrefl a)] at h1
      rcases Nat.lt_trichotomy a c with hac | hac | hac
      · rw [if_pos hac]
      · subst hac
        rw [if_neg (Nat.lt_irrefl a), if_neg (Nat.lt_irrefl a)] at h2 ⊢
        exact lexNat_lt_trans h1 h2
      · rw [if_neg (Nat.lt_asymm hac), if_pos hac] at h2; exact Ordering.noConfusion h2
    · rw [if_neg (Nat.lt_asymm hab), if_pos hab] at h1; exact Ordering.noConfusion h1

theorem collatorCompare_self (a : String) : collatorCompare a a = 0 := by
  unfold collatorCompare
  rw [lexNat_self]; rfl

theorem collKey_eq_of_compare_eq_zero {a b : String} (h : collatorCompare a b = 0) :
    collKey a = collKey b := by
  unfold collatorCompare at h
  cases hl : lexNat (collKey a) (collKey b) with
  | lt => rw [hl] at h; exact absurd h (by decide)
  | eq => exact eq_of_lexNat_eq hl
  | gt => rw [hl] at h; exact absurd h (by decide)

theorem collatorCompare_congr_left {a a' : String} (h : collKey a = collKey a') (b : String) :
    collatorCompare a b = collatorCompare a' b := by
  unfold collatorCompare; rw [h]

theorem collatorCompare_comm (a b : String) : collatorCompare b a = -collatorCompare a b := by
  unfold collatorCompare
  rw [lexNat_swap]
  cases lexNat (collKey a) (collKey b) <;> rfl

theorem collatorCompare_cases (a b : String) :
    collatorCompare a b = -1 ∨ collatorCompare a b = 0 ∨ collatorCompare a b = 1 := by
  unfold collatorCompare
  cases lexNat (collKey a) (collKey b) with
  | lt => exact Or.inl rfl
  | eq => exact Or.inr (Or.inl rfl)
  | gt => exact Or.inr (Or.inr rfl)

theorem collatorCompare_neg_one_trans {a b c : String}
    (h1 : collatorCompare a b = -1) (h2 : collatorCompare b c = -1) :
    collatorCompare a c = -1 := by
  unfold collatorCompare at h1 h2 ⊢
  cases hl1 : lexNat (collKey a) (collKey b) <;> rw [hl1] at h1 <;>
    first
    | exact absurd h1 (by decide)
    | cases hl2 : lexNat (collKey b) (collKey c) <;> rw [hl2] at h2 <;>
        first
        | exact absurd h2 (by decide)
        | (rw [lexNat_lt_trans hl1 hl2]; rfl)

/-! ### The sort comparator is a total preorder, antisymmetric up to `idx` -/

theorem jsCmp_neg (dir : Int) (c : Nat) (a b : Nat × Row) :
    jsCmp dir c b a = -jsCmp dir c a b := by
  unfold jsCmp
  by_cases h : collatorCompare (cellAt a.2 c) (cellAt b.2 c) = 0
  · have h' : collatorCompare (cellAt b.2 c) (cellAt a.2 c) = 0 := by
      rw [collatorCompare_comm, h]; rfl
    simp only [h, h', ne_eq, not_true_eq_false, if_false, if_neg]
    ring
  · have h' : collatorCompare (cellAt b.2 c) (cellAt a.2 c) ≠ 0 := fun hz => by
      rw [collatorCompare_comm] at hz
      exact h (by omega)
    simp only [ne_eq, h, h', not_false_eq_true, if_true, if_pos]
    rw [collatorCompare_comm]
    ring

theorem sortRel_refl (dir : Int) (c : Nat) (a : Nat × Row) : sortRel dir c a a := by
  unfold sortRel jsCmp
  rw [collatorCompare_self]
  simp

theorem sortRel_total (dir : Int) (c : Nat) (a b : Nat × Row) :
    sortRel dir c a b ∨ sortRel dir c b a := by
  unfold sortRel
  rw [jsCmp_neg]
  omega

theorem sortRel_trans (dir : Int) (c : Nat) (a b d : Nat × Row)
    (h1 : sortRel dir c a b) (h2 : sortRel dir c b d) : sortRel dir c a d := by
  unfold sortRel jsCmp at h1 h2 ⊢
  by_cases hx : collatorCompare (cellAt a.2 c) (cellAt b.2 c) = 0
  · have hkey := collKey_eq_of_compare_eq_zero hx
    have had : collatorCompare (cellAt a.2 c) (cellAt d.2 c)
        = collatorCompare (cellAt b.2 c) (cellAt d.2 c) :=
      collatorCompare_congr_left hkey _
    rw [if_neg (by simp [hx])] at h1
    by_cases hy : collatorCompare (cellAt b.2 c) (cellAt d.2 c) = 0
    · rw [if_neg (by simp [hy])] at h2
      rw [if_neg (by simp [had, hy])]
      have hsum : dir * ((a.1 : Int) - d.1)
          = dir * ((a.1 : Int) - b.1) + dir * ((b.1 : Int) - d.1) := by ring
      rw [hsum]
      exact add_nonpos h1 h2
    · rw [if_pos (by simpa using hy)] at h2
      rw [if_pos (by simp [had, hy]), had]
      exact h2
  · by_cases hy : collatorCompare (cellAt b.2 c) (cellAt d.2 c) = 0
    · have hkey := collKey_eq_of_compare_eq_zero hy
      have had : collatorCompare (cellAt a.2 c) (cellAt d.2 c)
          = collatorCompare (cellAt a.2 c) (cellAt b.2 c) := by
        rw [collatorCompare_comm, collatorCompare_congr_left hkey.symm,
          collatorCompare_comm (cellAt a.2 c) (cellAt b.2 c)]
        ring
      rw [if_pos (by simpa using hx)] at h1
      rw [if_pos (by simp [had, hx]), had]
      exact h1
    · rw [if_pos (by simpa using hx)] at h1
      rw [if_pos (by simpa using hy)] at h2
      rcases collatorCompare_cases (cellAt a.2 c) (cellAt b.2 c) with hx1 | hx1 | hx1 <;>
        [skip; exact absurd hx1 hx; skip] <;>
        rcases collatorCompare_cases (cellAt b.2 c) (cellAt d.2 c) with hy1 | hy1 | hy1 <;>
          [skip; exact absurd hy1 hy; skip; skip; exact absurd hy1 hy; skip]
      · have hz : collatorCompare (cellAt a.2 c) (cellAt d.2 c) = -1 :=
          collatorCompare_neg_one_trans hx1 hy1
        rw [if_pos (by simp [hz]), hz]
        rw [hx1] at h1
        linarith
      · -- `a < b` but `d < b`: the hypotheses force `dir = 0`
        have hd0 : dir = 0 := by rw [hx1] at h1; rw [hy1] at h2; omega
        subst hd0
        simp
      · have hd0 : dir = 0 := by rw [hx1] at h1; rw [hy1] at h2; omega
        subst hd0
        simp
      · have hz : collatorCompare (cellAt d.2 c) (cellAt a.2 c) = -1 := by
          have hba : collatorCompare (cellAt b.2 c) (cellAt a.2 c) = -1 := by
            rw [collatorCompare_comm, hx1]
          have hdb : collatorCompare (cellAt d.2 c) (cellAt b.2 c) = -1 := by
            rw [collatorCompare_comm, hy1]
          exact collatorCompare_neg_one_trans hdb hba
        have hz' : collatorCompare (cellAt a.2 c) (cellAt d.2 c) = 1 := by
          rw [collatorCompare_comm] at hz
          omega
        rw [if_pos (by simp [hz']), hz']
        rw [hx1] at h1
        linarith

theorem sortRel_antisymm {dir : Int} {c : Nat} (hdir : dir ≠ 0) {a b : Nat × Row}
    (h1 : sortRel dir c a b) (h2 : sortRel dir c b a) :
    collatorCompare (cellAt a.2 c) (cellAt b.2 c) = 0 ∧ a.1 = b.1 := by
  unfold sortRel at h1 h2
  rw [jsCmp_neg] at h2
  have h0 : jsCmp dir c a b = 0 := le_antisymm h1 (by omega)
  unfold jsCmp at h0
  by_cases hx : collatorCompare (cellAt a.2 c) (cellAt b.2 c) = 0
  · rw [if_neg (by simp [hx])] at h0
    have := mul_eq_zero.mp h0
    refine ⟨hx, ?_⟩
    omega
  · rw [if_pos (by simpa using hx)] at h0
    have := mul_eq_zero.mp h0
    exact absurd (by omega : collatorCompare (cellAt a.2 c) (cellAt b.2 c) = 0) hx

/-! ### Generic facts: the unique sorted permutation, order inside a sorted list -/

/-- A sorted permutation of a sorted list is that list, as soon as the order is
antisymmetric on the members involved. -/
theorem eq_of_perm_of_pairwise {α : Type} (le : α → α → Prop) :
    ∀ {l₁ l₂ : List α}, l₁.Perm l₂ →
      (∀ a ∈ l₁, ∀ b ∈ l₁, le a b → le b a → a = b) →
      l₁.Pairwise le → l₂.Pairwise le → l₁ = l₂ := by
  intro l₁
  induction l₁ with
  | nil =>
    intro l₂ hp _ _ _
    exact (hp.symm.eq_nil).symm
  | cons a t ih =>
    intro l₂ hp hanti hs1 hs2
    cases l₂ with
    | nil => exact absurd hp.eq_nil (by simp)
    | cons b t₂ =>
      by_cases hab : a = b
      · subst hab
        have ht := ih hp.cons_inv
          (fun x hx y hy => hanti x (List.mem_cons_of_mem _ hx) y (List.mem_cons_of_mem _ hy))
          hs1.tail hs2.tail
        rw [ht]
      · have hb1 : b ∈ a :: t := hp.symm.subset (List.mem_cons_self b t₂)
        have ha2 : a ∈ b :: t₂ := hp.subset (List.mem_cons_self a t)
        have hbt : b ∈ t := by
          rcases List.mem_cons.mp hb1 with h | h
          · exact absurd h.symm hab
          · exact h
        have hat2 : a ∈ t₂ := by
          rcases List.mem_cons.mp ha2 with h | h
          · exact absurd h hab
          · exact h
        have h1 : le a b := List.rel_of_pairwise_cons hs1 hbt
        have h2 : le b a := List.rel_of_pairwise_cons hs2 hat2
        exact absurd (hanti a (List.mem_cons_self a t) b hb1 h1 h2) hab

/-- In a `le`-sorted list, an element strictly below another (w.r.t. `le`)
occurs before it: the two form a sublist in that order. -/
theorem pair_sublist_of_pairwise {α : Type} (le : α → α → Prop)
    (hrefl : ∀ x, le x x) :
    ∀ {l : List α} {a b : α}, l.Pairwise le → a ∈ l → b ∈ l → ¬ le b a →
      List.Sublist [a, b] l := by
  intro l
  induction l with
  | nil => intro a b _ ha; cases ha
  | cons x t ih =>
    intro a b hpw ha hb hnle
    rcases List.mem_cons.mp ha with ha1 | ha'
    · rcases List.mem_cons.mp hb with hb1 | hb'
      · rw [ha1, hb1] at hnle
        exact absurd (hrefl x) hnle
      · rw [ha1]
        exact (List.singleton_sublist.mpr hb').cons₂ x
    · rcases List.mem_cons.mp hb with hb1 | hb'
      · rw [hb1] at hnle
        exact absurd (List.rel_of_pairwise_cons hpw ha') hnle
      · exact (ih hpw.tail ha' hb' hnle).cons x

/-- An element of `l.enumFrom n` has index at least `n`. -/
theorem le_fst_of_mem_enumFrom {α : Type} :
    ∀ {l : List α} {n : Nat} {p : Nat × α}, p ∈ l.enumFrom n → n ≤ p.1 := by
  intro l
  induction l with
  | nil => intro n p h; cases h
  | cons x t ih =>
    intro n p h
    rw [List.enumFrom_cons] at h
    rcases List.mem_cons.mp h with rfl | h'
    · exact le_refl n
    · have := ih h'
      omega

/-- The indices in `l.enumFrom n` are strictly increasing. -/
theorem pairwise_fst_lt_enumFrom {α : Type} :
    ∀ (l : List α) (n : Nat), (l.enumFrom n).Pairwise fun p q => p.1 < q.1 := by
  intro l
  induction l with
  | nil => intro n; exact List.Pairwise.nil
  | cons x t ih =>
    intro n
    rw [List.enumFrom_cons]
    refine List.Pairwise.cons ?_ (ih (n + 1))
    intro p hp
    have : n + 1 ≤ p.1 := le_fst_of_mem_enumFrom hp
    omega

/-- The indices in `l.enum` are strictly increasing. -/
theorem pairwise_fst_lt_enum {α : Type} (l : List α) :
    l.enum.Pairwise fun p q => p.1 < q.1 :=
  pairwise_fst_lt_enumFrom l 0

/-- Two members of an index-strictly-increasing list with the same index are
the same element. -/
theorem eq_of_mem_pairwise_fst {α : Type} {l : List (Nat × α)}
    (hpw : l.Pairwise fun p q => p.1 < q.1) {a b : Nat × α}
    (ha : a ∈ l) (hb : b ∈ l) (hfst : a.1 = b.1) : a = b := by
  induction l with
  | nil => cases ha
  | cons x t ih =>
    rcases List.mem_cons.mp ha with rfl | ha' <;> rcases List.mem_cons.mp hb with rfl | hb'
    · rfl
    · exact absurd hfst (by have := List.rel_of_pairwise_cons hpw hb'; omega)
    · exact absurd hfst (by have := List.rel_of_pairwise_cons hpw ha'; omega)
    · exact ih hpw.tail ha' hb'

/-- Fact: `l.enum.map Prod.snd = l`. -/
theorem enum_map_snd {α : Type} (l : List α) : l.enum.map Prod.snd = l :=
  List.enumFrom_map_snd 0 l

/-- The second component of an `enum` member is a member of the list. -/
theorem snd_mem_of_mem_enum {α : Type} {l : List α} {p : Nat × α} (h : p ∈ l.enum) :
    p.2 ∈ l := by
  have := List.mem_map_of_mem Prod.snd h
  rwa [enum_map_snd] at this

/-! ### Structure of `handleSort` -/

theorem handleSort_of_lt (st : TableState) (c : Nat) (hc : c < st.columns.length) :
    handleSort st c =
      { st with
        rows := (st.rows.enum.insertionSort (sortRel (dirFactor (nextDirection st c)) c)).map
          Prod.snd,
        sortState := { columnIndex := some c, direction := nextDirection st c } } := by
  unfold handleSort
  rw [if_pos hc]

theorem handleSort_columns (st : TableState) (c : Nat) :
    (handleSort st c).columns = st.columns := by
  unfold handleSort
  split <;> rfl

theorem handleSort_selectedRows (st : TableState) (c : Nat) :
    (handleSort st c).selectedRows = st.selectedRows := by
  unfold handleSort
  split <;> rfl

theorem handleSort_rows_perm (st : TableState) (c : Nat) :
    (handleSort st c).rows.Perm st.rows := by
  unfold handleSort
  split
  · have h2 := (List.perm_insertionSort
      (sortRel (dirFactor (nextDirection st c)) c) st.rows.enum).map Prod.snd
    rw [enum_map_snd] at h2
    exact h2
  · exact List.Perm.refl _

theorem insertionSort_sortRel_pairwise (dir : Int) (c : Nat) (l : List (Nat × Row)) :
    (l.insertionSort (sortRel dir c)).Pairwise (sortRel dir c) := by
  haveI : IsTotal (Nat × Row) (sortRel dir c) := ⟨sortRel_total dir c⟩
  haveI : IsTrans (Nat × Row) (sortRel dir c) := ⟨fun a b d => sortRel_trans dir c a b d⟩
  exact List.sorted_insertionSort _ _

theorem sortRel_anti_on_enum {dir : Int} (hdir : dir ≠ 0) (c : Nat) (rows : List Row) :
    ∀ a ∈ rows.enum, ∀ b ∈ rows.enum, sortRel dir c a b → sortRel dir c b a → a = b := by
  intro a ha b hb h1 h2
  exact eq_of_mem_pairwise_fst (pairwise_fst_lt_enum rows) ha hb (sortRel_antisymm hdir h1 h2).2

/-- C7: sorting never touches the selection set, and permutes the very same
row objects, so each row's selection membership is untouched. -/
theorem claim_C7 (st : TableState) (c : Nat) :
    (handleSort st c).selectedRows = st.selectedRows ∧
    (handleSort st c).rows.Perm st.rows ∧
    ∀ r : Row, rowSelected (handleSort st c) r ↔ rowSelected st r := by
  refine ⟨handleSort_selectedRows st c, handleSort_rows_perm st c, ?_⟩
  intro r
  unfold rowSelected
  rw [handleSort_selectedRows]

/-! ### The two sort laws of the spec -/

/-- Ascending sort of rows whose sort-column values are all equal is the
identity: the comparator degenerates to the index tie-break. -/
theorem insertionSort_asc_of_const (c : Nat) (rows : List Row)
    (heq : ∀ r ∈ rows, ∀ r' ∈ rows, cellAt r c = cellAt r' c) :
    (rows.enum.insertionSort (sortRel 1 c)).map Prod.snd = rows := by
  have hpw : rows.enum.Pairwise (sortRel 1 c) := by
    refine (pairwise_fst_lt_enum rows).imp_of_mem ?_
    intro a b ha hb hlt
    unfold sortRel jsCmp
    have hcell : cellAt a.2 c = cellAt b.2 c :=
      heq _ (snd_mem_of_mem_enum ha) _ (snd_mem_of_mem_enum hb)
    rw [hcell, collatorCompare_self]
    simp only [ne_eq, not_true_eq_false, if_false, if_neg]
    omega
  rw [List.Sorted.insertionSort_eq hpw, enum_map_snd]

theorem compare_le_of_sortRel_one {c : Nat} {p q : Nat × Row} (h : sortRel 1 c p q) :
    collatorCompare (cellAt p.2 c) (cellAt q.2 c) ≤ 0 := by
  unfold sortRel jsCmp at h
  by_cases h0 : collatorCompare (cellAt p.2 c) (cellAt q.2 c) = 0
  · omega
  · rw [if_pos (by simpa using h0)] at h
    omega

/-- Descending sort of a table whose rows are already weakly ascending in the
sort column reverses the rows exactly: on distinct keys the comparator flips,
and on ties the reversed index tie-break flips too. -/
theorem insertionSort_desc_of_sorted (c : Nat) (rows : List Row)
    (hsorted : rows.Pairwise fun r r' => collatorCompare (cellAt r c) (cellAt r' c) ≤ 0) :
    (rows.enum.insertionSort (sortRel (-1) c)).map Prod.snd = rows.reverse := by
  have hpairs : rows.enum.Pairwise fun p q : Nat × Row =>
      p.1 < q.1 ∧ collatorCompare (cellAt p.2 c) (cellAt q.2 c) ≤ 0 := by
    have hsnd : (rows.enum.map Prod.snd).Pairwise
        (fun r r' => collatorCompare (cellAt r c) (cellAt r' c) ≤ 0) := by
      rw [enum_map_snd]
      exact hsorted
    exact (pairwise_fst_lt_enum rows).and (List.pairwise_map.mp hsnd)
  have hrev : (rows.enum.reverse).Pairwise (sortRel (-1) c) := by
    rw [List.pairwise_reverse]
    refine hpairs.imp ?_
    rintro ⟨i, r⟩ ⟨j, r'⟩ ⟨hlt, hcmp⟩
    unfold sortRel jsCmp
    by_cases h0 : collatorCompare (cellAt r' c) (cellAt r c) = 0
    · rw [if_neg (by simp [h0])]
      simp only
      omega
    · rw [if_pos (by simpa using h0)]
      have hcomm : collatorCompare (cellAt r' c) (cellAt r c)
          = -collatorCompare (cellAt r c) (cellAt r' c) := collatorCompare_comm _ _
      simp only at hcmp ⊢
      omega
  have hperm : (rows.enum.insertionSort (sortRel (-1) c)).Perm rows.enum.reverse :=
    (List.perm_insertionSort _ _).trans (List.reverse_perm _).symm
  have hs2 := insertionSort_sortRel_pairwise (-1) c rows.enum
  have heq : rows.enum.insertionSort (sortRel (-1) c) = rows.enum.reverse := by
    refine eq_of_perm_of_pairwise _ hperm ?_ hs2 hrev
    intro a ha b hb h1 h2
    exact sortRel_anti_on_enum (by norm_num) c rows a ((List.mem_insertionSort _).mp ha) b
      ((List.mem_insertionSort _).mp hb) h1 h2
  rw [heq, List.map_reverse, enum_map_snd]

/-- C3: sorting by an all-equal column (first sort, ascending) keeps the row
order, and an ascending sort followed by a descending sort of the same column
reverses the rows exactly, ties included. -/
theorem claim_C3 (st : TableState) (c : Nat) (hc : c < st.columns.length)
    (hfirst : ¬(st.sortState.columnIndex = some c ∧ st.sortState.direction = Direction.asc)) :
    ((∀ r ∈ st.rows, ∀ r' ∈ st.rows, cellAt r c = cellAt r' c) →
      (handleSort st c).rows = st.rows) ∧
    (handleSort (handleSort st c) c).rows = ((handleSort st c).rows).reverse := by
  have hnd : nextDirection st c = Direction.asc := by
    unfold nextDirection
    rw [if_neg hfirst]
  have hrows1 : (handleSort st c).rows
      = (st.rows.enum.insertionSort (sortRel 1 c)).map Prod.snd := by
    rw [handleSort_of_lt st c hc]
    simp [hnd, dirFactor]
  constructor
  · intro heq
    rw [hrows1]
    exact insertionSort_asc_of_const c st.rows heq
  · have hc1 : c < (handleSort st c).columns.length := by
      rw [handleSort_columns]
      exact hc
    have hsortstate : (handleSort st c).sortState
        = { columnIndex := some c, direction := Direction.asc } := by
      rw [handleSort_of_lt st c hc, hnd]
    have hnd1 : nextDirection (handleSort st c) c = Direction.desc := by
      unfold nextDirection
      rw [hsortstate]
      simp
    have hrows2 : (handleSort (handleSort st c) c).rows
        = ((handleSort st c).rows.enum.insertionSort (sortRel (-1) c)).map Prod.snd := by
      rw [handleSort_of_lt (handleSort st c) c hc1]
      simp [hnd1, dirFactor]
    rw [hrows2]
    apply insertionSort_desc_of_sorted
    rw [hrows1]
    refine List.pairwise_map.mpr ?_
    refine (insertionSort_sortRel_pairwise 1 c st.rows.enum).imp ?_
    intro p q h
    exact compare_le_of_sortRel_one h

/-! ### Tie handling of `handleSort` (C4) -/

/-- C4 (amended): rows tied in the sort column keep their pre-call relative
order when the sort runs ascending, and have it exactly reversed when it runs
descending — the comparator breaks ties by `directionFactor * (a.idx - b.idx)`,
so the descending direction reverses tied runs rather than preserving them. -/
theorem claim_C4 (st : TableState) (c i j : Nat) (ri rj : Row)
    (hc : c < st.columns.length) (hij : i < j)
    (hri : st.rows[i]? = some ri) (hrj : st.rows[j]? = some rj)
    (htie : collatorCompare (cellAt ri c) (cellAt rj c) = 0) :
    (nextDirection st c = Direction.asc →
      List.Sublist [ri, rj] (handleSort st c).rows) ∧
    (nextDirection st c = Direction.desc →
      List.Sublist [rj, ri] (handleSort st c).rows) := by
  have hmi : (i, ri) ∈ st.rows.enum := List.mk_mem_enum_iff_getElem?.mpr hri
  have hmj : (j, rj) ∈ st.rows.enum := List.mk_mem_enum_iff_getElem?.mpr hrj
  have htie' : collatorCompare (cellAt rj c) (cellAt ri c) = 0 := by
    rw [collatorCompare_comm, htie]
    rfl
  constructor
  · intro hnd
    have hrows : (handleSort st c).rows
        = (st.rows.enum.insertionSort (sortRel 1 c)).map Prod.snd := by
      rw [handleSort_of_lt st c hc, hnd]
      rfl
    rw [hrows]
    have hnle : ¬ sortRel 1 c (j, rj) (i, ri) := by
      unfold sortRel jsCmp
      simp only [htie', ne_eq, not_true_eq_false, if_false, if_neg]
      simp only [one_mul]
      omega
    have hsub : List.Sublist [(i, ri), (j, rj)]
        (st.rows.enum.insertionSort (sortRel 1 c)) :=
      pair_sublist_of_pairwise _ (sortRel_refl 1 c)
        (insertionSort_sortRel_pairwise 1 c st.rows.enum)
        ((List.mem_insertionSort _).mpr hmi) ((List.mem_insertionSort _).mpr hmj) hnle
    exact hsub.map Prod.snd
  · intro hnd
    have hrows : (handleSort st c).rows
        = (st.rows.enum.insertionSort (sortRel (-1) c)).map Prod.snd := by
      rw [handleSort_of_lt st c hc, hnd]
      rfl
    rw [hrows]
    have hnle : ¬ sortRel (-1) c (i, ri) (j, rj) := by
      unfold sortRel jsCmp
      simp only [htie, ne_eq, not_true_eq_false, if_false, if_neg]
      simp only [neg_one_mul]
      omega
    have hsub : List.Sublist [(j, rj), (i, ri)]
        (st.rows.enum.insertionSort (sortRel (-1) c)) :=
      pair_sublist_of_pairwise _ (sortRel_refl (-1) c)
        (insertionSort_sortRel_pairwise (-1) c st.rows.enum)
        ((List.mem_insertionSort _).mpr hmj) ((List.mem_insertionSort _).mpr hmi) hnle
    exact hsub.map Prod.snd

/-! ### The row-width invariant (C1, C2) -/

theorem normalizeRow_length (cols : List String) (row : Option (List (Option String))) :
    (normalizeRow cols row).length = cols.length := by
  cases row <;> simp [normalizeRow]

theorem loadData_columns (cs : Option (List (Option String)))
    (rs : Option (List (Option (List (Option String))))) :
    (loadData cs rs).columns =
      match cs with
      | some l => l.enum.map fun p => columnLabel p.1 p.2
      | none => [] := rfl

theorem loadData_rows (cs : Option (List (Option String)))
    (rs : Option (List (Option (List (Option String))))) :
    (loadData cs rs).rows =
      match rs with
      | some l => l.enum.map fun p => Row.mk p.1 (normalizeRow (loadData cs rs).columns p.2)
      | none => [] := rfl

theorem loadData_inv (cs : Option (List (Option String)))
    (rs : Option (List (Option (List (Option String))))) :
    tableInvariant (loadData cs rs) := by
  intro r hr
  rw [loadData_rows] at hr
  cases rs with
  | none => cases hr
  | some l =>
    obtain ⟨p, _, hr'⟩ := List.mem_map.mp hr
    rw [← hr']
    exact normalizeRow_length _ _

theorem clampIndex_le (pi : Option Int) (len : Nat) : clampIndex pi len ≤ len := by
  unfold clampIndex
  apply Int.toNat_le.mpr
  exact max_le (Int.ofNat_nonneg len) (min_le_right _ _)

theorem spliceInsert_length {α : Type} (l : List α) {i : Nat} (hi : i ≤ l.length) (a : α) :
    (spliceInsert l i a).length = l.length + 1 := by
  unfold spliceInsert
  simp only [List.length_append, List.length_cons, List.length_take, List.length_drop]
  omega

theorem ensureColumn_inv {st : TableState} (h : tableInvariant st) (n : String)
    (pi : Option Int) : tableInvariant (ensureColumn st n pi).2 := by
  unfold ensureColumn
  cases hf : st.columns.findIdx? (matchesName n) with
  | some i => exact h
  | none =>
    intro r hr
    simp only at hr ⊢
    obtain ⟨r0, hr0, hr'⟩ := List.mem_map.mp hr
    rw [← hr']
    simp only
    rw [spliceInsert_length r0.cells (by rw [h r0 hr0]; exact clampIndex_le _ _) "",
      spliceInsert_length st.columns (clampIndex_le _ _) n, h r0 hr0]

theorem ensureColumn_idx_lt (st : TableState) (n : String) (pi : Option Int) :
    (ensureColumn st n pi).1 < (ensureColumn st n pi).2.columns.length := by
  unfold ensureColumn
  cases hf : st.columns.findIdx? (matchesName n) with
  | some i =>
    simp only
    obtain ⟨hlt, -, -⟩ := List.findIdx?_eq_some_iff_getElem.mp hf
    exact hlt
  | none =>
    simp only
    rw [spliceInsert_length st.columns (clampIndex_le _ _) n]
    exact Nat.lt_succ_of_le (clampIndex_le _ _)

theorem jsArraySet_length_of_lt {l : List String} {i : Nat} (h : i < l.length) (v : String) :
    (jsArraySet l i v).length = l.length := by
  unfold jsArraySet
  rw [if_pos h]
  simp

theorem writeColumnValues_inv {st : TableState} (h : tableInvariant st) {c : Nat}
    (hc : c < st.columns.length) (vs : List (Option String)) :
    tableInvariant (writeColumnValues st c vs) := by
  intro r hr
  unfold writeColumnValues at hr
  simp only at hr ⊢
  obtain ⟨p, hp, hr'⟩ := List.mem_map.mp hr
  rw [← hr']
  have hmem := snd_mem_of_mem_enum hp
  simp only
  rw [jsArraySet_length_of_lt (by rw [h p.2 hmem]; exact hc)]
  exact h p.2 hmem

theorem removeSelectedRows_columns (st : TableState) :
    (removeSelectedRows st).columns = st.columns := by
  unfold removeSelectedRows
  split <;> rfl

theorem removeSelectedRows_inv {st : TableState} (h : tableInvariant st) :
    tableInvariant (removeSelectedRows st) := by
  intro r hr
  rw [removeSelectedRows_columns]
  unfold removeSelectedRows at hr
  split at hr
  · exact h r hr
  · simp only at hr
    exact h r (List.mem_of_mem_filter hr)

theorem handleSort_inv {st : TableState} (h : tableInvariant st) (c : Nat) :
    tableInvariant (handleSort st c) := by
  intro r hr
  rw [handleSort_columns]
  exact h r ((handleSort_rows_perm st c).subset hr)

theorem applyStep_inv {mode : ApplyMode} {lookup : String → Option (List (Option String))}
    {acc : TableState × Nat} (h : tableInvariant acc.1) (label : String) :
    tableInvariant (applyStep mode lookup acc label).1 := by
  unfold applyStep
  exact writeColumnValues_inv (ensureColumn_inv h _ _) (ensureColumn_idx_lt _ _ _) _

theorem applyFold_inv {mode : ApplyMode} {lookup : String → Option (List (Option String))} :
    ∀ (labels : List String) (st : TableState) (k : Nat),
      tableInvariant st →
      tableInvariant ((labels.foldl (applyStep mode lookup) (st, k)).1) := by
  intro labels
  induction labels with
  | nil => intro st k h; exact h
  | cons l ls ih =>
    intro st k h
    rw [List.foldl_cons]
    exact ih (applyStep mode lookup (st, k) l).1 (applyStep mode lookup (st, k) l).2
      (applyStep_inv h l)

theorem applyFieldValues_inv {st : TableState} (h : tableInvariant st)
    (labels : Option (List String)) (lookup : String → Option (List (Option String)))
    (opts : ApplyOptions) : tableInvariant (applyFieldValues st labels lookup opts) := by
  unfold applyFieldValues
  cases labels with
  | none => exact h
  | some ls =>
    simp only
    split
    · exact h
    · exact applyFold_inv ls st _ h

/-- C1 (amended): every public mutating operation preserves the row-width
invariant, provided `setColumnValues` targets an existing column index (as
every in-repo caller does; an out-of-range index extends the written rows —
see the counterexample). -/
theorem claim_C1 (op : TableOp) (st : TableState) (hinv : tableInvariant st)
    (hv : opValid op st) : tableInvariant (applyOp op st) := by
  cases op with
  | load cs rs => exact loadData_inv cs rs
  | ensure n pi => exact ensureColumn_inv hinv n pi
  | setValues c vs => exact writeColumnValues_inv hinv hv vs
  | applyFields ls lk o => exact applyFieldValues_inv hinv ls lk o
  | sort c => exact handleSort_inv hinv c
  | deleteSelected => exact removeSelectedRows_inv hinv

/-- The one-column, one-row table used in the C1 counterexample. -/
def c1State : TableState := loadData (some [some "A"]) (some [some [some "x"]])

/-- C1 counterexample: `setColumnValues(2, [])` on a 1-column table satisfies
the claim's quantification ("every public mutating operation") yet breaks the
row-width invariant — JS `row[2] = ...` extends the row to length 3. -/
theorem claim_C1_cex :
    tableInvariant c1State ∧
    ¬ tableInvariant (applyOp (TableOp.setValues 2 []) c1State) := by
  decide

/-- C2: a load with array columns and rows yields exactly one stored row per
input row, every stored row as wide as the column set, and resets sort state
and selection. -/
theorem claim_C2 (cs : List (Option String)) (rs : List (Option (List (Option String)))) :
    (loadData (some cs) (some rs)).rows.length = rs.length ∧
    (loadData (some cs) (some rs)).columns.length = cs.length ∧
    (∀ r ∈ (loadData (some cs) (some rs)).rows,
      r.cells.length = (loadData (some cs) (some rs)).columns.length) ∧
    (loadData (some cs) (some rs)).sortState
      = { columnIndex := none, direction := Direction.asc } ∧
    (loadData (some cs) (some rs)).selectedRows = ∅ := by
  refine ⟨?_, ?_, loadData_inv _ _, rfl, rfl⟩
  · rw [loadData_rows]
    simp [List.enum_length]
  · rw [loadData_columns]
    simp [List.enum_length]

/-! ### `ensureColumn` (C5, C6) -/

/-- C5: for an absent name `ensureColumn` inserts at the clamped preferred
index, widening every row there, and returns that index; for a present name it
returns the first case-insensitive match's index and changes nothing. -/
theorem claim_C5 (st : TableState) (name : String) (pi : Int) :
    ((∀ col ∈ st.columns, lowerName col ≠ lowerName name) →
      ((ensureColumn st name (some pi)).1 : Int)
          = max 0 (min pi (st.columns.length : Int)) ∧
      (ensureColumn st name (some pi)).2.columns
          = st.columns.take (ensureColumn st name (some pi)).1 ++
              name :: st.columns.drop (ensureColumn st name (some pi)).1 ∧
      (ensureColumn st name (some pi)).2.rows
          = st.rows.map fun r =>
              { r with
                cells := r.cells.take (ensureColumn st name (some pi)).1 ++
                  "" :: r.cells.drop (ensureColumn st name (some pi)).1 }) ∧
    ((∃ col ∈ st.columns, lowerName col = lowerName name) →
      (ensureColumn st name (some pi)).2 = st ∧
      (ensureColumn st name (some pi)).1 < st.columns.length ∧
      lowerName (st.columns.getD (ensureColumn st name (some pi)).1 "") = lowerName name ∧
      ∀ j < (ensureColumn st name (some pi)).1,
        lowerName (st.columns.getD j "") ≠ lowerName name) := by
  constructor
  · intro habs
    have hf : st.columns.findIdx? (matchesName name) = none := by
      rw [List.findIdx?_eq_none_iff]
      intro x hx
      unfold matchesName
      exact beq_eq_false_iff_ne.mpr (habs x hx)
    have he : ensureColumn st name (some pi)
        = (clampIndex (some pi) st.columns.length,
            { st with
              columns := spliceInsert st.columns (clampIndex (some pi) st.columns.length) name,
              rows := st.rows.map fun r =>
                { r with
                  cells := spliceInsert r.cells (clampIndex (some pi) st.columns.length) "" } }) := by
      unfold ensureColumn
      rw [hf]
    rw [he]
    refine ⟨?_, rfl, rfl⟩
    show ((clampIndex (some pi) st.columns.length : Nat) : Int) = _
    unfold clampIndex
    rw [Option.getD_some]
    exact Int.toNat_of_nonneg (le_max_left 0 _)
  · intro hex
    cases hf : st.columns.findIdx? (matchesName name) with
    | none =>
      obtain ⟨col, hcol, hcoleq⟩ := hex
      have := List.findIdx?_eq_none_iff.mp hf col hcol
      unfold matchesName at this
      rw [beq_eq_false_iff_ne] at this
      exact absurd hcoleq this
    | some i =>
      have he : ensureColumn st name (some pi) = (i, st) := by
        unfold ensureColumn
        rw [hf]
      rw [he]
      obtain ⟨hlt, hp, hprev⟩ := List.findIdx?_eq_some_iff_getElem.mp hf
      refine ⟨rfl, hlt, ?_, ?_⟩
      · rw [List.getD_eq_getElem st.columns "" hlt]
        unfold matchesName at hp
        exact eq_of_beq hp
      · intro j hj
        have hjlt : j < st.columns.length := Nat.lt_trans hj hlt
        rw [List.getD_eq_getElem st.columns "" hjlt]
        intro heq
        apply hprev j hj
        unfold matchesName
        exact beq_iff_eq.mpr heq

theorem matchesName_self (n : String) : matchesName n n = true := by
  unfold matchesName
  exact beq_self_eq_true _

/-- After any `ensureColumn` call, the case-insensitive lookup of the same
name finds exactly the returned index. -/
theorem ensureColumn_findIdx_after (st : TableState) (n : String) (pi : Option Int) :
    (ensureColumn st n pi).2.columns.findIdx? (matchesName n)
      = some (ensureColumn st n pi).1 := by
  unfold ensureColumn
  cases hf : st.columns.findIdx? (matchesName n) with
  | some i => exact hf
  | none =>
    simp only
    unfold spliceInsert
    rw [List.findIdx?_append]
    have htake : (st.columns.take (clampIndex pi st.columns.length)).findIdx?
        (matchesName n) = none := by
      rw [List.findIdx?_eq_none_iff]
      intro x hx
      exact List.findIdx?_eq_none_iff.mp hf x (List.mem_of_mem_take hx)
    rw [htake, List.findIdx?_cons, matchesName_self]
    simp [List.length_take, Nat.min_eq_left (clampIndex_le pi st.columns.length)]

/-- C6: `ensureColumn` is idempotent — a second call with the same name (any
preferred index) returns the same index and leaves the state untouched. -/
theorem claim_C6 (st : TableState) (name : String) (pi pi' : Option Int) :
    ensureColumn (ensureColumn st name pi).2 name pi'
      = ((ensureColumn st name pi).1, (ensureColumn st name pi).2) := by
  have h := ensureColumn_findIdx_after st name pi
  rcases hpair : ensureColumn st name pi with ⟨i1, st1⟩
  rw [hpair] at h
  simp only at h ⊢
  unfold ensureColumn
  rw [h]

/-! ### Silent handling of non-array loads (C10) -/

/-- C10 (amended): a load with a non-array argument completes and leaves
`hasData()` false; the non-array side is normalized to empty, but the other
argument, when it is an array, is still loaded (columns are retained when only
the rows argument is malformed, and empty-normalized rows when only the
columns argument is). -/
theorem claim_C10 (cs : Option (List (Option String)))
    (rs : Option (List (Option (List (Option String)))))
    (h : cs = none ∨ rs = none) :
    hasData (loadData cs rs) = false ∧
    (cs = none → (loadData cs rs).columns = []) ∧
    (rs = none → (loadData cs rs).rows = []) := by
  refine ⟨?_, fun hcs => by rw [hcs, loadData_columns], fun hrs => by rw [hrs, loadData_rows]⟩
  unfold hasData
  rcases h with rfl | rfl
  · rfl
  · have hzero : (loadData cs none).rows.length = 0 := by
      rw [loadData_rows]
      rfl
    rw [hzero]
    simp

/-- C10 counterexample: with array columns and non-array rows the store keeps
the columns, and with non-array columns and array rows it keeps one (empty)
row per input row — the state is not empty, though `hasData()` is false. -/
theorem claim_C10_cex :
    hasData (loadData (some [some "A"]) none) = false ∧
    (loadData (some [some "A"]) none).columns = ["A"] ∧
    (loadData (some [some "A"]) none).columns ≠ [] ∧
    (loadData none (some [none, none])).rows.length = 2 := by
  decide

/-! ### `findEmailColumn` (C9) -/

theorem findSomeIdx_none (ncols : List String) :
    ∀ (cands : List String),
      cands.findSome? (fun m => ncols.findIdx? fun col => includes col m) = none →
      ∀ m ∈ cands, ∀ col ∈ ncols, includes col m = false := by
  intro cands
  induction cands with
  | nil => intro _ m hm; cases hm
  | cons m0 ms ih =>
    intro h m hm col hcol
    rw [List.findSome?_cons] at h
    cases hf : ncols.findIdx? fun col => includes col m0 with
    | some i =>
      rw [hf] at h
      exact absurd h (by simp)
    | none =>
      rw [hf] at h
      rcases List.mem_cons.mp hm with rfl | hm'
      · exact List.findIdx?_eq_none_iff.mp hf col hcol
      · exact ih h m hm' col hcol

theorem findSomeIdx_some (ncols : List String) :
    ∀ (cands : List String) (i : Nat),
      cands.findSome? (fun m => ncols.findIdx? fun col => includes col m) = some i →
      ∃ k, ∃ hk : k < cands.length,
        (ncols.findIdx? fun col => includes col (cands.get ⟨k, hk⟩)) = some i ∧
        ∀ k' < k, ∀ col ∈ ncols, includes col (cands.getD k' "") = false := by
  intro cands
  induction cands with
  | nil => intro i h; cases h
  | cons m0 ms ih =>
    intro i h
    rw [List.findSome?_cons] at h
    cases hf : ncols.findIdx? fun col => includes col m0 with
    | some j =>
      rw [hf] at h
      have hji : j = i := by
        have := h
        simp only [Option.some.injEq] at this
        exact this
      subst hji
      exact ⟨0, Nat.succ_pos _, hf, fun k' hk' => absurd hk' (Nat.not_lt_zero k')⟩
    | none =>
      rw [hf] at h
      obtain ⟨k, hk, hfk, hbefore⟩ := ih i h
      refine ⟨k + 1, Nat.succ_lt_succ hk, hfk, ?_⟩
      intro k' hk' col hcol
      cases k' with
      | zero => exact List.findIdx?_eq_none_iff.mp hf col hcol
      | succ k'' => exact hbefore k'' (Nat.lt_of_succ_lt_succ hk') col hcol

/-- C9: the email-column finder returns `-1` exactly when no column's
normalized name contains any candidate substring (in particular on an empty
column set); a non-negative result is the first column containing the
highest-priority candidate that matches anywhere — the `/mail|email/`
fallback can never fire, because its two patterns are themselves candidates. -/
theorem claim_C9 (st : TableState) :
    (st.columns = [] → findEmailColumn st = -1) ∧
    (findEmailColumn st = -1 ↔
      ∀ col ∈ st.columns, ∀ cand ∈ preferredMatches,
        includes (normalizeColumnName col) cand = false) ∧
    (∀ i : Nat, findEmailColumn st = (i : Int) →
      ∃ k, ∃ hk : k < preferredMatches.length,
        i < st.columns.length ∧
        includes (normalizeColumnName (st.columns.getD i ""))
          (preferredMatches.get ⟨k, hk⟩) = true ∧
        (∀ j < i, includes (normalizeColumnName (st.columns.getD j ""))
          (preferredMatches.get ⟨k, hk⟩) = false) ∧
        (∀ k' < k, ∀ col ∈ st.columns,
          includes (normalizeColumnName col) (preferredMatches.getD k' "") = false)) := by
  by_cases hemp : st.columns.length = 0
  · have hnil : st.columns = [] := List.length_eq_zero.mp hemp
    have hres : findEmailColumn st = -1 := by
      unfold findEmailColumn
      rw [if_pos hemp]
    refine ⟨fun _ => hres, ?_, ?_⟩
    · rw [hres, hnil]
      simp
    · intro i hi
      rw [hres] at hi
      exact absurd hi (by omega)
  · have hne : ¬ st.columns = [] := fun hn => hemp (by rw [hn]; rfl)
    have hbody : findEmailColumn st =
        match preferredMatches.findSome?
            (fun m => (st.columns.map normalizeColumnName).findIdx?
              fun col => includes col m) with
        | some i => (i : Int)
        | none =>
          match (st.columns.map normalizeColumnName).findIdx?
              fun col => includes col "mail" || includes col "email" with
          | some i => (i : Int)
          | none => -1 := by
      unfold findEmailColumn
      rw [if_neg hemp]
    cases hmain : preferredMatches.findSome?
        (fun m => (st.columns.map normalizeColumnName).findIdx?
          fun col => includes col m) with
    | some i0 =>
      rw [hmain] at hbody
      have hval : findEmailColumn st = (i0 : Int) := by rw [hbody]
      obtain ⟨k, hk, hfk, hbefore⟩ := findSomeIdx_some _ _ _ hmain
      obtain ⟨hilen, hpi, hprev⟩ := List.findIdx?_eq_some_iff_getElem.mp hfk
      have hilen' : i0 < st.columns.length := by
        rw [List.length_map] at hilen
        exact hilen
      refine ⟨fun hn => absurd hn hne, ?_, ?_⟩
      · rw [hval]
        constructor
        · intro hi1
          exact absurd hi1 (by omega)
        · intro hall
          have hmem : st.columns.getD i0 "" ∈ st.columns := by
            rw [List.getD_eq_getElem st.columns "" hilen']
            exact List.getElem_mem hilen'
          have hfalse := hall (st.columns.getD i0 "") hmem
            (preferredMatches.get ⟨k, hk⟩) (preferredMatches.get_mem k hk)
          rw [List.getElem_map] at hpi
          rw [List.getD_eq_getElem st.columns "" hilen'] at hfalse
          rw [hfalse] at hpi
          exact absurd hpi (by simp)
      · intro i hi
        rw [hval] at hi
        have hii : i = i0 := by omega
        subst hii
        refine ⟨k, hk, hilen', ?_, ?_, ?_⟩
        · rw [List.getD_eq_getElem st.columns "" hilen']
          rw [List.getElem_map] at hpi
          exact hpi
        · intro j hj
          have hjlen : j < st.columns.length := Nat.lt_trans hj hilen'
          have hjf := hprev j hj
          rw [List.getElem_map] at hjf
          rw [List.getD_eq_getElem st.columns "" hjlen]
          simpa using hjf
        · intro k' hk' col hcol
          exact hbefore k' hk' (normalizeColumnName col) (List.mem_map_of_mem _ hcol)
    | none =>
      rw [hmain] at hbody
      have hallfalse := findSomeIdx_none _ _ hmain
      have hfb : ((st.columns.map normalizeColumnName).findIdx?
          fun col => includes col "mail" || includes col "email") = none := by
        rw [List.findIdx?_eq_none_iff]
        intro x hx
        have h1 := hallfalse "mail" (by unfold preferredMatches; simp) x hx
        have h2 := hallfalse "email" (by unfold preferredMatches; simp) x hx
        rw [h1, h2]
        rfl
      rw [hfb] at hbody
      have hval : findEmailColumn st = -1 := by rw [hbody]
      refine ⟨fun _ => hval, ?_, ?_⟩
      · rw [hval]
        simp only [true_iff]
        intro col hcol cand hcand
        exact hallfalse cand hcand (normalizeColumnName col) (List.mem_map_of_mem _ hcol)
      · intro i hi
        rw [hval] at hi
        exact absurd hi (by omega)

/-! ### `applyFieldValues` in fixed-index mode (C8) -/

/-- The value written for `label` into the row at `rowIdx`:
`formatCell(valueLookup[label][rowIdx])`, with `[]` for a missing entry. -/
def fieldValue (lookup : String → Option (List (Option String))) (label : String)
    (rowIdx : Nat) : String :=
  formatCell (((lookup label).getD []).getD rowIdx none)

theorem enumFrom_map_enumFrom {α β : Type} (f : Nat × α → β) :
    ∀ (l : List α) (n : Nat),
      ((l.enumFrom n).map f).enumFrom n = (l.enumFrom n).map fun q => (q.1, f q) := by
  intro l
  induction l with
  | nil => intro n; rfl
  | cons x t ih =>
    intro n
    simp only [List.enumFrom_cons, List.map_cons]
    rw [ih (n + 1)]

theorem enum_map_enum {α β : Type} (f : Nat × α → β) (l : List α) :
    (l.enum.map f).enum = l.enum.map fun q => (q.1, f q) :=
  enumFrom_map_enumFrom f l 0

theorem set_middle {α : Type} :
    ∀ (X : List α) (a : α) (Y : List α) (v : α),
      (X ++ a :: Y).set X.length v = X ++ v :: Y := by
  intro X
  induction X with
  | nil => intro a Y v; rfl
  | cons x xs ih =>
    intro a Y v
    simp only [List.cons_append, List.length_cons, List.set_cons_succ]
    rw [ih]

theorem spliceInsert_at_length {α : Type} (X D : List α) (a : α) :
    spliceInsert (X ++ D) X.length a = X ++ a :: D := by
  unfold spliceInsert
  rw [List.take_left' rfl, List.drop_left' rfl]

/-- One `applyStep` in fixed-index mode on a label that is new both to the
original columns and to the labels already inserted: the label lands exactly
at the cursor (right after the previous label), all rows get its value there,
and the cursor advances by one. -/
theorem applyStep_new (lookup : String → Option (List (Option String)))
    (C : List String) (R : List Row) (k : Nat) (hk : k ≤ C.length)
    (hR : ∀ r ∈ R, r.cells.length = C.length)
    (done : List String) (st : TableState) (l : String)
    (hcols : st.columns = C.take k ++ done ++ C.drop k)
    (hrows : st.rows = R.enum.map fun q =>
      { id := q.2.id,
        cells := q.2.cells.take k ++ done.map (fun d => fieldValue lookup d q.1) ++
          q.2.cells.drop k })
    (hnewC : ∀ col ∈ C, lowerName col ≠ lowerName l)
    (hnewD : ∀ d ∈ done, lowerName d ≠ lowerName l) :
    applyStep ApplyMode.index lookup (st, k + done.length) l
      = ({ columns := C.take k ++ (done ++ [l]) ++ C.drop k,
           rows := R.enum.map fun q =>
             { id := q.2.id,
               cells := q.2.cells.take k ++
                 (done ++ [l]).map (fun d => fieldValue lookup d q.1) ++
                 q.2.cells.drop k },
           selectedRows := st.selectedRows,
           sortState := st.sortState }, k + done.length + 1) := by
  have hlen_take : (C.take k).length = k := by
    rw [List.length_take]
    omega
  have hprefix_len : (C.take k ++ done).length = k + done.length := by
    rw [List.length_append, hlen_take]
  have hfind : st.columns.findIdx? (matchesName l) = none := by
    rw [List.findIdx?_eq_none_iff]
    intro x hx
    rw [hcols] at hx
    unfold matchesName
    rw [beq_eq_false_iff_ne]
    rcases List.mem_append.mp hx with hx1 | hx2
    · rcases List.mem_append.mp hx1 with hx3 | hx4
      · exact hnewC x (List.mem_of_mem_take hx3)
      · exact hnewD x hx4
    · exact hnewC x (List.mem_of_mem_drop hx2)
  have hcollen : st.columns.length = C.length + done.length := by
    rw [hcols]
    simp only [List.length_append, List.length_take, List.length_drop]
    omega
  have hclamp : clampIndex (some ((k + done.length : Nat) : Int)) st.columns.length
      = k + done.length := by
    unfold clampIndex
    rw [Option.getD_some]
    have h1 : ((k + done.length : Nat) : Int) ≤ ((st.columns.length : Nat) : Int) := by
      rw [hcollen]
      push_cast
      omega
    rw [min_eq_left h1, max_eq_right (Int.ofNat_nonneg _), Int.toNat_natCast]
  have hens : ensureColumn st l (some ((k + done.length : Nat) : Int))
      = (clampIndex (some ((k + done.length : Nat) : Int)) st.columns.length,
         { st with
           columns := spliceInsert st.columns
             (clampIndex (some ((k + done.length : Nat) : Int)) st.columns.length) l,
           rows := st.rows.map fun r =>
             { r with
               cells := spliceInsert r.cells
                 (clampIndex (some ((k + done.length : Nat) : Int)) st.columns.length) "" } }) := by
    unfold ensureColumn
    rw [hfind]
  rw [hclamp] at hens
  have hsplice_cols : spliceInsert st.columns (k + done.length) l
      = C.take k ++ (done ++ [l]) ++ C.drop k := by
    rw [hcols, ← hprefix_len, spliceInsert_at_length]
    simp [List.append_assoc]
  have hsplice_rows : (st.rows.map fun r =>
      { r with cells := spliceInsert r.cells (k + done.length) "" })
      = R.enum.map fun q =>
        { id := q.2.id,
          cells := (q.2.cells.take k ++ done.map (fun d => fieldValue lookup d q.1)) ++
            "" :: q.2.cells.drop k } := by
    rw [hrows, List.map_map]
    apply List.map_congr_left
    intro q hq
    have hqlen : q.2.cells.length = C.length := hR q.2 (snd_mem_of_mem_enum hq)
    have htk : (q.2.cells.take k).length = k := by
      rw [List.length_take]
      omega
    have hpre : (q.2.cells.take k ++ done.map (fun d => fieldValue lookup d q.1)).length
        = k + done.length := by
      rw [List.length_append, htk, List.length_map]
    simp only [Function.comp_apply]
    rw [← hpre, spliceInsert_at_length]
  unfold applyStep
  dsimp only
  rw [hens]
  dsimp only
  rw [if_pos ⟨rfl, le_refl (k + done.length)⟩]
  unfold writeColumnValues
  dsimp only
  rw [hsplice_rows, enum_map_enum, List.map_map, hsplice_cols]
  refine congrArg₂ Prod.mk ?_ rfl
  congr 1
  apply List.map_congr_left
  intro q hq
  have hqlen : q.2.cells.length = C.length := hR q.2 (snd_mem_of_mem_enum hq)
  have htk : (q.2.cells.take k).length = k := by
    rw [List.length_take]
    omega
  have hpre : (q.2.cells.take k ++ done.map (fun d => fieldValue lookup d q.1)).length
      = k + done.length := by
    rw [List.length_append, htk, List.length_map]
  simp only [Function.comp_apply]
  have hlt : k + done.length <
      ((q.2.cells.take k ++ done.map (fun d => fieldValue lookup d q.1)) ++
        "" :: q.2.cells.drop k).length := by
    rw [List.length_append, hpre]
    simp
  unfold jsArraySet
  rw [if_pos hlt, ← hpre, set_middle]
  simp [fieldValue, List.append_assoc]

/-- Folding `applyStep` in fixed-index mode over labels that are all new (to
the original columns and to each other): closed form of the resulting columns
and rows. -/
theorem applyFold_closed (lookup : String → Option (List (Option String)))
    (C : List String) (R : List Row) (k : Nat) (hk : k ≤ C.length)
    (hR : ∀ r ∈ R, r.cells.length = C.length) :
    ∀ (todo done : List String) (st : TableState),
      st.columns = C.take k ++ done ++ C.drop k →
      st.rows = R.enum.map (fun q =>
        { id := q.2.id,
          cells := q.2.cells.take k ++ done.map (fun d => fieldValue lookup d q.1) ++
            q.2.cells.drop k }) →
      (∀ l ∈ todo, ∀ col ∈ C, lowerName col ≠ lowerName l) →
      (∀ l ∈ todo, ∀ d ∈ done, lowerName d ≠ lowerName l) →
      todo.Pairwise (fun l l' => lowerName l ≠ lowerName l') →
      (todo.foldl (applyStep ApplyMode.index lookup) (st, k + done.length)).1.columns
          = C.take k ++ (done ++ todo) ++ C.drop k ∧
      (todo.foldl (applyStep ApplyMode.index lookup) (st, k + done.length)).1.rows
          = R.enum.map (fun q =>
            { id := q.2.id,
              cells := q.2.cells.take k ++
                (done ++ todo).map (fun d => fieldValue lookup d q.1) ++
                q.2.cells.drop k }) := by
  intro todo
  induction todo with
  | nil =>
    intro done st hcols hrows _ _ _
    simp only [List.foldl_nil, List.append_nil]
    exact ⟨hcols, hrows⟩
  | cons l ls ih =>
    intro done st hcols hrows hnewC hnewD hdist
    rw [List.foldl_cons]
    rw [applyStep_new lookup C R k hk hR done st l hcols hrows
      (hnewC l (List.mem_cons_self l ls)) (hnewD l (List.mem_cons_self l ls))]
    have hcur : k + done.length + 1 = k + (done ++ [l]).length := by
      rw [List.length_append]
      rfl
    rw [hcur]
    have h := ih (done ++ [l])
      ({ columns := C.take k ++ (done ++ [l]) ++ C.drop k,
         rows := R.enum.map fun q =>
           { id := q.2.id,
             cells := q.2.cells.take k ++
               (done ++ [l]).map (fun d => fieldValue lookup d q.1) ++
               q.2.cells.drop k },
         selectedRows := st.selectedRows,
         sortState := st.sortState })
      rfl rfl
      (fun l' hl' col hcol => hnewC l' (List.mem_cons_of_mem l hl') col hcol)
      (fun l' hl' d hd => by
        rcases List.mem_append.mp hd with hd1 | hd2
        · exact hnewD l' (List.mem_cons_of_mem l hl') d hd1
        · have hdl : d = l := by simpa using hd2
          rw [hdl]
          exact List.rel_of_pairwise_cons hdist hl')
      hdist.tail
    obtain ⟨h1, h2⟩ := h
    constructor
    · rw [h1]
      simp [List.append_assoc]
    · rw [h2]
      simp [List.append_assoc]

/-- C8 (amended): in fixed-index mode, when every label is new (absent
case-insensitively from the columns) and the labels are pairwise distinct
case-insensitively, the labels are inserted as a block at the clamped
insertion index, in the given order, and every row receives
`formatCell(valuesByLabel[label][rowIndex])` at each label's column.  (When a
label already exists at or after the cursor, the cursor jumps past it — see
the counterexample — so the original universally-quantified claim fails.) -/
theorem claim_C8 (st : TableState) (labels : List String)
    (lookup : String → Option (List (Option String))) (idx : Int)
    (hinv : tableInvariant st) (hne : labels ≠ [])
    (hnew : ∀ l ∈ labels, ∀ col ∈ st.columns, lowerName col ≠ lowerName l)
    (hdist : labels.Pairwise fun l l' => lowerName l ≠ lowerName l') :
    (applyFieldValues st (some labels) lookup
        { mode := ApplyMode.index, index := some idx }).columns
      = st.columns.take (clampIndex (some idx) st.columns.length) ++ labels ++
        st.columns.drop (clampIndex (some idx) st.columns.length) ∧
    (applyFieldValues st (some labels) lookup
        { mode := ApplyMode.index, index := some idx }).rows
      = st.rows.enum.map fun q =>
          { id := q.2.id,
            cells := q.2.cells.take (clampIndex (some idx) st.columns.length) ++
              labels.map (fun l => fieldValue lookup l q.1) ++
              q.2.cells.drop (clampIndex (some idx) st.columns.length) } := by
  have hk : clampIndex (some idx) st.columns.length ≤ st.columns.length := clampIndex_le _ _
  have happ : applyFieldValues st (some labels) lookup
      { mode := ApplyMode.index, index := some idx }
      = (labels.foldl (applyStep ApplyMode.index lookup)
          (st, clampIndex (some idx) st.columns.length)).1 := by
    unfold applyFieldValues
    dsimp only
    rw [if_neg (by simpa [List.isEmpty_iff] using hne)]
  have hcols0 : st.columns
      = st.columns.take (clampIndex (some idx) st.columns.length) ++ [] ++
        st.columns.drop (clampIndex (some idx) st.columns.length) := by
    simp [List.take_append_drop]
  have hrows0 : st.rows
      = st.rows.enum.map (fun q =>
        { id := q.2.id,
          cells := q.2.cells.take (clampIndex (some idx) st.columns.length) ++
            ([] : List String).map (fun d => fieldValue lookup d q.1) ++
            q.2.cells.drop (clampIndex (some idx) st.columns.length) }) := by
    conv_lhs => rw [← enum_map_snd st.rows]
    apply List.map_congr_left
    intro q hq
    simp [List.take_append_drop]
  have h := applyFold_closed lookup st.columns st.rows
    (clampIndex (some idx) st.columns.length) hk hinv labels [] st hcols0 hrows0
    hnew (fun l hl d hd => absurd hd (List.not_mem_nil d)) hdist
  rw [happ]
  simp only [List.length_nil, Nat.add_zero, List.nil_append] at h
  exact h

/-! ### Concrete states for counterexamples and witnesses -/

/-- The spec's running example: columns `Name`, `Email`, rows `Bob`, `Ann`. -/
def exampleState : TableState :=
  loadData (some [some "Name", some "Email"])
    (some [some [some "Bob", some "b@x.com"], some [some "Ann", some "a@x.com"]])

/-- Two rows tied in column 0 (`"x"`), distinguishable by column 1. -/
def tieState : TableState :=
  loadData (some [some "A", some "B"])
    (some [some [some "x", some "1"], some [some "x", some "2"]])

/-- State `tieState` after one ascending sort by column 0: the next sort by column 0
runs descending. -/
def c4State : TableState := handleSort tieState 0

/-- A three-column table for the C8 counterexample. -/
def c8State : TableState :=
  loadData (some [some "A", some "B", some "C"])
    (some [some [some "1", some "2", some "3"]])

/-- A value lookup supplying one value for every label. -/
def c8Lookup : String → Option (List (Option String)) := fun _ => some [some "v"]

/-- A value lookup for the C8 witness. -/
def c8wLookup : String → Option (List (Option String)) := fun l =>
  if l = "Title" then some [some "T1", some "T2"] else none

/-- The empty store. -/
def emptyState : TableState := loadData none none

/-- C4 counterexample: rows 0 and 1 are tied in column 0; before the
descending sort they sit in order `[0, 1]`, after it in order `[1, 0]` — the
descending direction reverses tied rows instead of keeping their relative
order, because the tie-break is `directionFactor * (a.idx - b.idx)`. -/
theorem claim_C4_cex :
    collatorCompare (cellAt (Row.mk 0 ["x", "1"]) 0) (cellAt (Row.mk 1 ["x", "2"]) 0) = 0 ∧
    c4State.rows.map Row.id = [0, 1] ∧
    nextDirection c4State 0 = Direction.desc ∧
    (handleSort c4State 0).rows.map Row.id = [1, 0] := by
  decide

/-- C8 counterexample: on columns `[A, B, C]` with labels `[X, C, Y]` at
fixed index 0, the new labels are `X` and `Y`; the claim places them at the
consecutive indices 0 and 1, but the existing label `C` (at index 3 ≥ the
cursor) jumps the cursor past itself, so `Y` lands at index 4. -/
theorem claim_C8_cex :
    (applyFieldValues c8State (some ["X", "C", "Y"]) c8Lookup
        { mode := ApplyMode.index, index := some 0 }).columns = ["X", "A", "B", "C", "Y"] ∧
    clampIndex (some 0) c8State.columns.length = 0 ∧
    ((applyFieldValues c8State (some ["X", "C", "Y"]) c8Lookup
        { mode := ApplyMode.index, index := some 0 }).columns.findIdx?
      fun col => col == "X") = some 0 ∧
    ((applyFieldValues c8State (some ["X", "C", "Y"]) c8Lookup
        { mode := ApplyMode.index, index := some 0 }).columns.findIdx?
      fun col => col == "Y") = some 4 := by
  decide

/-! ### Witnesses -/

theorem claim_C1_witness :
    tableInvariant exampleState ∧ opValid (TableOp.sort 0) exampleState ∧
    tableInvariant (applyOp (TableOp.sort 0) exampleState) :=
  ⟨by decide, trivial, claim_C1 (TableOp.sort 0) exampleState (by decide) trivial⟩

theorem claim_C3_witness :
    0 < exampleState.columns.length ∧
    ¬(exampleState.sortState.columnIndex = some 0 ∧
      exampleState.sortState.direction = Direction.asc) ∧
    (handleSort (handleSort exampleState 0) 0).rows
      = ((handleSort exampleState 0).rows).reverse :=
  ⟨by decide, by decide, (claim_C3 exampleState 0 (by decide) (by decide)).2⟩

theorem claim_C4_witness :
    collatorCompare (cellAt (Row.mk 0 ["x", "1"]) 0) (cellAt (Row.mk 1 ["x", "2"]) 0) = 0 ∧
    List.Sublist [Row.mk 0 ["x", "1"], Row.mk 1 ["x", "2"]] (handleSort tieState 0).rows :=
  ⟨by decide,
    (claim_C4 tieState 0 0 1 (Row.mk 0 ["x", "1"]) (Row.mk 1 ["x", "2"]) (by decide)
      (by decide) (by decide) (by decide) (by decide)).1 (by decide)⟩

theorem claim_C5_witness :
    (∀ col ∈ exampleState.columns, lowerName col ≠ lowerName "Title") ∧
    ((ensureColumn exampleState "Title" (some 1)).1 : Int)
      = max 0 (min 1 (exampleState.columns.length : Int)) ∧
    (ensureColumn exampleState "Title" (some 1)).2.columns
      = exampleState.columns.take (ensureColumn exampleState "Title" (some 1)).1 ++
          "Title" :: exampleState.columns.drop (ensureColumn exampleState "Title" (some 1)).1 :=
  ⟨by decide, ((claim_C5 exampleState "Title" 1).1 (by decide)).1,
    ((claim_C5 exampleState "Title" 1).1 (by decide)).2.1⟩

theorem claim_C8_witness :
    tableInvariant exampleState ∧ (["Title", "Dept"] : List String) ≠ [] ∧
    (applyFieldValues exampleState (some ["Title", "Dept"]) c8wLookup
        { mode := ApplyMode.index, index := some 1 }).columns
      = exampleState.columns.take (clampIndex (some 1) exampleState.columns.length) ++
        ["Title", "Dept"] ++
        exampleState.columns.drop (clampIndex (some 1) exampleState.columns.length) :=
  ⟨by decide, by decide,
    (claim_C8 exampleState ["Title", "Dept"] c8wLookup 1 (by decide) (by decide) (by decide)
      (by decide)).1⟩

theorem claim_C9_witness :
    emptyState.columns = [] ∧ findEmailColumn emptyState = -1 :=
  ⟨rfl, (claim_C9 emptyState).1 rfl⟩

theorem claim_C10_witness :
    ((none : Option (List (Option String))) = none ∨
      (some [some [some "x"]] : Option (List (Option (List (Option String))))) = none) ∧
    hasData (loadData none (some [some [some "x"]])) = false :=
  ⟨Or.inl rfl, (claim_C10 none (some [some [some "x"]]) (Or.inl rfl)).1⟩

end DataTable
